import Mathlib

/-!
Verification of the dynamic tunnel-source multiplexer
(src/snocat/src/common/tunnel_source/mod.rs).

Shallow embedding:
* A type-erased boxed stream (BoxStream) is modelled as the list of items it
  will yield, in order; polling a stream yields its head or end-of-stream.
* tokio_stream::StreamMap (the dependency the multiplexer delegates to) is
  modelled from its source: a vector of (key, stream) entries, with
  insert = remove-then-push, remove = scan-then-swap_remove, and the
  randomized round-robin poll loop.  The random starting index chosen by
  thread_rng_n(len) is passed in explicitly as a parameter.
* The std::sync::Mutex around the registry is modelled by an explicit lock
  state (unlocked / held-by-another / poisoned); a panic via expect is
  modelled as a `panicked` result carrying the panic message, and a blocking
  acquisition of a held lock as `blocked`.
-/

section Model

variable {Id Item : Type} [DecidableEq Id] [DecidableEq Item]

/-- NamedBoxedStream: a boxed stream together with the Id associated with it.
The type-erased stream is modelled by the list of items it will yield. -/
structure NamedBoxedStream (Id Item : Type) where
  id : Id
  stream : List Item
deriving DecidableEq, Repr

/-- NamedBoxedStream::new / new_pre_boxed: pure wrapper construction. -/
def NamedBoxedStream.new_pre_boxed (id : Id) (stream : List Item) :
    NamedBoxedStream Id Item :=
  { id := id, stream := stream }

/-- The Stream impl of NamedBoxedStream forwards poll_next to the inner
boxed stream: yield the next item, or end-of-stream. -/
def NamedBoxedStream.poll_next (s : NamedBoxedStream Id Item) :
    Option Item × NamedBoxedStream Id Item :=
  match s.stream with
  | [] => (none, s)
  | x :: rest => (some x, { s with stream := rest })

/-- Repeatedly poll a NamedBoxedStream until end-of-stream, collecting the
items it yields (the drain used by the add_and_remove test). -/
def NamedBoxedStream.drain : NamedBoxedStream Id Item → List Item
  | { id := _, stream := [] } => []
  | { id := i, stream := x :: rest } => x :: NamedBoxedStream.drain { id := i, stream := rest }

/-- Vec::swap_remove(i): remove the element at index i, moving the last
element of the vector into its place.  (For i out of bounds the Vec panics;
that case is never reached from the call sites below.) -/
def swapRemove (l : List α) (i : Nat) : List α :=
  if i + 1 < l.length then
    match l.getLast? with
    | some last => l.dropLast.set i last
    | none => l.dropLast
  else
    l.dropLast

/-- tokio_stream::StreamMap, as used by DynamicStreamSet: a vector of
(key, stream) entries. -/
structure StreamMap (Id Item : Type) where
  entries : List (Id × NamedBoxedStream Id Item)
deriving DecidableEq, Repr

/-- The scan loop of StreamMap::remove: index of the first entry whose key
matches, if any. -/
def findKeyIdx (k : Id) : List (Id × NamedBoxedStream Id Item) → Option Nat
  | [] => none
  | e :: rest => if e.1 = k then some 0 else (findKeyIdx k rest).map (· + 1)

/-- StreamMap::remove: scan for the first entry with the given key and
swap_remove it, returning the removed stream. -/
def StreamMap.remove (m : StreamMap Id Item) (k : Id) :
    Option (NamedBoxedStream Id Item) × StreamMap Id Item :=
  match findKeyIdx k m.entries with
  | some i =>
    match m.entries[i]? with
    | some e => (some e.2, ⟨swapRemove m.entries i⟩)
    | none => (none, m)
  | none => (none, m)

/-- StreamMap::insert: remove any entry under the key, then push the new
(key, stream) pair; the displaced stream (if any) is returned. -/
def StreamMap.insert (m : StreamMap Id Item) (k : Id) (v : NamedBoxedStream Id Item) :
    Option (NamedBoxedStream Id Item) × StreamMap Id Item :=
  let r := m.remove k
  (r.1, ⟨r.2.entries ++ [(k, v)]⟩)

/-- The loop body of StreamMap::poll_next_entry: starting from a random
index, poll each entry in turn; an entry that yields an item is returned
(key cloned) with its stream advanced in place; an entry that reports
end-of-stream is swap_removed and the cursor adjusted.  `remaining` is the
loop bound (the entry count at loop entry).  Sub-streams are modelled as
always-ready lists, so the source's Pending arm (advance the cursor and
continue) can never fire and has no counterpart here. -/
def pollLoop (entries : List (Id × NamedBoxedStream Id Item))
    (start idx remaining : Nat) :
    Option (Id × Item) × List (Id × NamedBoxedStream Id Item) :=
  match remaining with
  | 0 => (none, entries)
  | r + 1 =>
    match entries[idx]? with
    | none => (none, entries)
    | some (k, s) =>
      match s.poll_next with
      | (some x, s') => (some (k, x), entries.set idx (k, s'))
      | (none, _) =>
        let es := swapRemove entries idx
        let idx' :=
          if idx = es.length then 0
          else if idx < start ∧ start ≤ es.length then (idx + 1) % es.length
          else idx
        pollLoop es start idx' r

/-- Poll::Ready / Poll::Pending for the merged stream. -/
inductive MapPoll (Id Item : Type) where
  | ready (v : Option (Id × Item))
  | pending
deriving DecidableEq, Repr

/-- The Stream impl of StreamMap (poll_next via poll_next_entry): run the
round-robin loop from a random start index; if the loop yields nothing and
the map has become empty, the merged stream is complete, otherwise it is
pending.  `rand` stands for the RNG draw behind thread_rng_n(len). -/
def StreamMap.poll_next (m : StreamMap Id Item) (rand : Nat) :
    MapPoll Id Item × StreamMap Id Item :=
  let start := if m.entries.length = 0 then 0 else rand % m.entries.length
  match pollLoop m.entries start start m.entries.length with
  | (some kv, es) => (.ready (some kv), ⟨es⟩)
  | (none, es) => if es.isEmpty then (.ready none, ⟨es⟩) else (.pending, ⟨es⟩)

/-- State of the std::sync::Mutex guarding the registry, as observed by one
operation: free, currently held elsewhere, or poisoned by a prior panic. -/
inductive LockState where
  | unlocked
  | locked
  | poisoned
deriving DecidableEq, Repr

/-- Result of an operation that must acquire the registry mutex:
it completes, panics (expect on a poisoned lock), or blocks waiting. -/
inductive LockResult (α : Type) where
  | ok (a : α)
  | panicked (msg : String)
  | blocked
deriving DecidableEq, Repr

/-- Outcome of polling the DynamicStreamSet merged stream.  `pending
wokeSelf` records whether the task asked to be woken again immediately
(cx.waker().wake_by_ref()) before returning Poll::Pending. -/
inductive SetPoll (Id Item : Type) where
  | pending (wokeSelf : Bool)
  | ready (v : Option (Id × Item))
deriving DecidableEq, Repr

/-- Whether a poll result reports Poll::Pending (of either kind). -/
def isPendingResult : LockResult (SetPoll Id Item × StreamMap Id Item) → Bool
  | .ok (.pending _, _) => true
  | _ => false

/-- DynamicStreamSet::new: a fresh, empty registry. -/
def DynamicStreamSet.new : StreamMap Id Item := ⟨[]⟩

/-- DynamicStreamSet::attach: lock the registry (expect "Mutex poisoned")
and insert the source under its carried id, returning any displaced entry. -/
def DynamicStreamSet.attach (lock : LockState) (m : StreamMap Id Item)
    (source : NamedBoxedStream Id Item) :
    LockResult (Option (NamedBoxedStream Id Item) × StreamMap Id Item) :=
  match lock with
  | .locked => .blocked
  | .poisoned => .panicked "Mutex poisoned"
  | .unlocked => .ok (m.insert source.id source)

/-- DynamicStreamSet::attach_stream: wrap the boxed stream with its id and
attach it. -/
def DynamicStreamSet.attach_stream (lock : LockState) (m : StreamMap Id Item)
    (id : Id) (source : List Item) :
    LockResult (Option (NamedBoxedStream Id Item) × StreamMap Id Item) :=
  DynamicStreamSet.attach lock m (NamedBoxedStream.new_pre_boxed id source)

/-- DynamicStreamSet::detach: lock the registry (expect "Mutex poisoned")
and remove the entry under the id, returning it if present. -/
def DynamicStreamSet.detach (lock : LockState) (m : StreamMap Id Item)
    (id : Id) :
    LockResult (Option (NamedBoxedStream Id Item) × StreamMap Id Item) :=
  match lock with
  | .locked => .blocked
  | .poisoned => .panicked "Mutex poisoned"
  | .unlocked => .ok (m.remove id)

/-- DynamicStreamSet::handle: clone the Arc around the registry — the
handle views the very same registry state. -/
def DynamicStreamSet.handle (m : StreamMap Id Item) : StreamMap Id Item := m

/-- DynamicStreamSet::into_handle: consume the set, yielding a handle over
the very same registry state. -/
def DynamicStreamSet.into_handle (m : StreamMap Id Item) : StreamMap Id Item := m

/-- DynamicStreamSet::poll_next: try_lock the registry.  If the lock is
held, wake our own waker (queue for retry) and report Pending without
blocking; if it is poisoned, panic with "Lock poisoned"; otherwise poll the
underlying StreamMap under the lock. -/
def DynamicStreamSet.poll_next (lock : LockState) (m : StreamMap Id Item)
    (rand : Nat) : LockResult (SetPoll Id Item × StreamMap Id Item) :=
  match lock with
  | .locked => .ok (.pending true, m)
  | .poisoned => .panicked "Lock poisoned"
  | .unlocked =>
    match m.poll_next rand with
    | (.ready v, m') => .ok (.ready v, m')
    | (.pending, m') => .ok (.pending false, m')

/-- The Stream impl of DynamicStreamSetHandle delegates to
DynamicStreamSet::poll_next on the shared registry. -/
def DynamicStreamSetHandle.poll_next (lock : LockState) (m : StreamMap Id Item)
    (rand : Nat) : LockResult (SetPoll Id Item × StreamMap Id Item) :=
  DynamicStreamSet.poll_next lock m rand

/-- Drain the merged stream to completion: poll the DynamicStreamSet (with
the lock uncontended each time, as a single consumer task would) until it
reports end-of-stream, collecting the yielded (id, item) pairs.  `rands`
supplies the successive RNG draws; `fuel` bounds the number of polls, and
`none` means the drain did not complete within the fuel. -/
def drainSet (m : StreamMap Id Item) (rands : Nat → Nat) :
    Nat → Option (List (Id × Item))
  | 0 => none
  | fuel + 1 =>
    match DynamicStreamSet.poll_next .unlocked m (rands 0) with
    | .ok (.ready none, _) => some []
    | .ok (.ready (some kv), m') =>
      (drainSet m' (fun n => rands (n + 1)) fuel).map (kv :: ·)
    | _ => none

/-- The keys currently present in a registry entry vector. -/
def keys (l : List (Id × NamedBoxedStream Id Item)) : List Id :=
  l.map Prod.fst

/-- First entry stored under a key (the lookup order StreamMap's scan uses). -/
def lookupEntry (k : Id) :
    List (Id × NamedBoxedStream Id Item) → Option (NamedBoxedStream Id Item)
  | [] => none
  | e :: rest => if e.1 = k then some e.2 else lookupEntry k rest

/-- The items a key's registered stream has yet to yield ([] if absent). -/
def itemsOf (l : List (Id × NamedBoxedStream Id Item)) (k : Id) : List Item :=
  match lookupEntry k l with
  | some s => s.stream
  | none => []

/-- Total number of items remaining across all registered streams. -/
def totalItems (l : List (Id × NamedBoxedStream Id Item)) : Nat :=
  (l.map (fun e => e.2.stream.length)).sum

/-- The subsequence of a merged output attributed to one id. -/
def ofId (k : Id) (l : List (Id × Item)) : List Item :=
  l.filterMap (fun p => if p.1 = k then some p.2 else none)

/-- Registry well-formedness, maintained by every DynamicStreamSet
operation: keys are unique, and each stored stream carries the key it is
registered under (attach always inserts under source.id). -/
def WF (m : StreamMap Id Item) : Prop :=
  (keys m.entries).Nodup ∧ ∀ e ∈ m.entries, e.2.id = e.1

instance WF.instDecidable (m : StreamMap Id Item) : Decidable (WF m) :=
  inferInstanceAs
    (Decidable ((keys m.entries).Nodup ∧ ∀ e ∈ m.entries, e.2.id = e.1))

end Model

section Quinn

variable {Conn : Type} [DecidableEq Conn]

/-- Which endpoint initiated a tunnel (protocol::tunnel::TunnelSide).
Modelled from the spec: tunnels produced by a listen adapter are tagged
with listener-side ("accepted-by-listener") directionality. -/
inductive TunnelSide where
  | Listen
  | Connect
deriving DecidableEq, Repr

/-- A tunnel pair built from an established connection.  Modelled from the
spec: from_quinn_endpoint (protocol::tunnel, outside the excerpted core)
turns one successful handshake into one tunnel pair tagged with a side. -/
structure TunnelPair (Conn : Type) where
  conn : Conn
  side : TunnelSide
deriving DecidableEq, Repr

/-- Modelled from the spec: from_quinn_endpoint builds the tunnel pair for
a new connection, tagged with the given side. -/
def from_quinn_endpoint (c : Conn) (side : TunnelSide) : TunnelPair Conn :=
  { conn := c, side := side }

/-- The incoming stream built by QuinnListenEndpoint::bind: each element of
`raw` is one inbound handshake attempt, `some c` when the handshake
succeeded (connecting.await.ok() yielded a connection) and `none` when it
failed; filter_map keeps only the successes. -/
def QuinnListenEndpoint.bindIncoming (raw : List (Option Conn)) : List Conn :=
  raw.filterMap id

/-- QuinnListenEndpoint::poll_next: poll the filtered incoming stream; end
when it ends, otherwise wrap the new connection as a listener-side tunnel
pair. -/
def QuinnListenEndpoint.poll_next :
    List Conn → Option (TunnelPair Conn) × List Conn
  | [] => (none, [])
  | c :: rest => (some (from_quinn_endpoint c TunnelSide.Listen), rest)

/-- Drain the adapter: poll until end-of-stream, collecting tunnel pairs. -/
def QuinnListenEndpoint.drainAll : List Conn → List (TunnelPair Conn)
  | [] => []
  | c :: rest =>
    from_quinn_endpoint c TunnelSide.Listen :: QuinnListenEndpoint.drainAll rest

end Quinn

section BasicLemmas

variable {Id Item : Type} [DecidableEq Id] [DecidableEq Item]

theorem NamedBoxedStream.drain_eq (s : NamedBoxedStream Id Item) :
    s.drain = s.stream := by
  obtain ⟨i, st⟩ := s
  induction st with
  | nil => simp [NamedBoxedStream.drain]
  | cons x rest ih => simpa [NamedBoxedStream.drain] using ih

/-- A merge poll of the StreamMap that reports end-of-input leaves the
entry vector empty: every entry it observed exhausted was removed. -/
theorem StreamMap.poll_next_ready_none_empty (m : StreamMap Id Item)
    (rand : Nat) (m' : StreamMap Id Item)
    (hp : StreamMap.poll_next m rand = (.ready none, m')) :
    m'.entries = [] := by
  rcases hl : pollLoop m.entries
      (if m.entries.length = 0 then 0 else rand % m.entries.length)
      (if m.entries.length = 0 then 0 else rand % m.entries.length)
      m.entries.length with ⟨res, es⟩
  rw [StreamMap.poll_next] at hp
  simp only [hl] at hp
  cases res with
  | some kv => simp at hp
  | none =>
    by_cases he : es.isEmpty
    · simp only [he, if_true, Prod.mk.injEq] at hp
      rw [← hp.2]
      simpa using he
    · simp [he] at hp

theorem QuinnListenEndpoint.drainAll_sides {Conn : Type} [DecidableEq Conn]
    (l : List Conn) :
    (QuinnListenEndpoint.drainAll l).all
      (fun p => p.side == TunnelSide.Listen) = true := by
  induction l with
  | nil => rfl
  | cons c rest ih =>
    simpa [QuinnListenEndpoint.drainAll, from_quinn_endpoint] using ih

end BasicLemmas

section EasyClaims

variable {Id Item : Type} [DecidableEq Id] [DecidableEq Item]

/-- C3: when the registry lock is contended, the merge poll does not block:
it wakes its own waker (requests rescheduling) and returns Pending, leaving
the registry untouched; it never blocks on the lock for any lock state, and
it runs the StreamMap merge poll exactly when the non-blocking lock attempt
succeeds. -/
theorem poll_next_lock_discipline (m : StreamMap Id Item) (rand : Nat) :
    DynamicStreamSet.poll_next .locked m rand = .ok (.pending true, m) ∧
    (∀ lock, DynamicStreamSet.poll_next lock m rand ≠ .blocked) ∧
    DynamicStreamSet.poll_next .unlocked m rand =
      (match m.poll_next rand with
       | (.ready v, m') => .ok (.ready v, m')
       | (.pending, m') => .ok (.pending false, m')) := by
  refine ⟨rfl, ?_, rfl⟩
  intro lock
  cases lock with
  | locked => simp [DynamicStreamSet.poll_next]
  | poisoned => simp [DynamicStreamSet.poll_next]
  | unlocked =>
    rcases hp : m.poll_next rand with ⟨p, m'⟩
    cases p <;> simp [DynamicStreamSet.poll_next, hp]

/-- C6: every DynamicStreamSet operation that observes the registry lock
poisoned panics (an abort of that path, carrying the expect message), never
returning a recoverable result. -/
theorem poisoned_lock_fatal (m : StreamMap Id Item)
    (s : NamedBoxedStream Id Item) (k : Id) (st : List Item) (rand : Nat) :
    DynamicStreamSet.attach .poisoned m s = .panicked "Mutex poisoned" ∧
    DynamicStreamSet.attach_stream .poisoned m k st = .panicked "Mutex poisoned" ∧
    DynamicStreamSet.detach .poisoned m k = .panicked "Mutex poisoned" ∧
    DynamicStreamSet.poll_next .poisoned m rand = .panicked "Lock poisoned" ∧
    DynamicStreamSetHandle.poll_next .poisoned m rand = .panicked "Lock poisoned" :=
  ⟨rfl, rfl, rfl, rfl, rfl⟩

/-- C8: a Handle obtained via handle() or into_handle() views the identical
registry state as the Core, and polling through the Handle is the very same
operation, with the same result, as polling through the Core on that state
(so any attach or detach through the Core is immediately visible to a merge
poll through any Handle). -/
theorem handle_shares_registry :
    (∀ m : StreamMap Id Item, DynamicStreamSet.handle m = m) ∧
    (∀ m : StreamMap Id Item, DynamicStreamSet.into_handle m = m) ∧
    (∀ (lock : LockState) (m : StreamMap Id Item) (rand : Nat),
      DynamicStreamSetHandle.poll_next lock (DynamicStreamSet.handle m) rand =
        DynamicStreamSet.poll_next lock m rand) :=
  ⟨fun _ => rfl, fun _ => rfl, fun _ _ _ => rfl⟩

/-- C9: the listen adapter's produced sequence drops every failed
handshake attempt silently (no item, no error, no termination), yields
exactly one listener-side tunnel pair per successful handshake, and ends
exactly when the underlying incoming stream ends. -/
theorem listen_adapter_behavior {Conn : Type} [DecidableEq Conn] :
    (∀ raw : List (Option Conn),
      (QuinnListenEndpoint.drainAll (QuinnListenEndpoint.bindIncoming raw)).all
        (fun p => p.side == TunnelSide.Listen) = true) ∧
    (∀ raw : List (Option Conn),
      QuinnListenEndpoint.drainAll (QuinnListenEndpoint.bindIncoming (none :: raw)) =
        QuinnListenEndpoint.drainAll (QuinnListenEndpoint.bindIncoming raw)) ∧
    (∀ (c : Conn) (raw : List (Option Conn)),
      QuinnListenEndpoint.drainAll (QuinnListenEndpoint.bindIncoming (some c :: raw)) =
        from_quinn_endpoint c TunnelSide.Listen ::
          QuinnListenEndpoint.drainAll (QuinnListenEndpoint.bindIncoming raw)) ∧
    (∀ inc : List Conn,
      (QuinnListenEndpoint.poll_next inc).1 = none ↔ inc = []) := by
  refine ⟨fun raw => QuinnListenEndpoint.drainAll_sides _, ?_, ?_, ?_⟩
  · intro raw
    simp [QuinnListenEndpoint.bindIncoming]
  · intro c raw
    simp [QuinnListenEndpoint.bindIncoming, QuinnListenEndpoint.drainAll]
  · intro inc
    cases inc <;> simp [QuinnListenEndpoint.poll_next]

/-- C5 (amended): polling a freshly constructed, empty DynamicStreamSet
reports end-of-sequence (Ready None), not Pending; attaching a source
proceeds normally, after which polling yields that source's next item (or
reaps it and reports end-of-sequence when it is already exhausted). -/
theorem empty_poll_finished_then_proceeds (rand rand' : Nat) (id : Id)
    (x : Item) (rest : List Item) (s : NamedBoxedStream Id Item) :
    DynamicStreamSet.poll_next .unlocked (DynamicStreamSet.new : StreamMap Id Item) rand =
      .ok (.ready none, DynamicStreamSet.new) ∧
    DynamicStreamSet.attach .unlocked (DynamicStreamSet.new : StreamMap Id Item) s =
      .ok (none, ⟨[(s.id, s)]⟩) ∧
    DynamicStreamSet.poll_next .unlocked
        (⟨[(id, ⟨id, x :: rest⟩)]⟩ : StreamMap Id Item) rand' =
      .ok (.ready (some (id, x)), ⟨[(id, ⟨id, rest⟩)]⟩) ∧
    DynamicStreamSet.poll_next .unlocked
        (⟨[(id, ⟨id, ([] : List Item)⟩)]⟩ : StreamMap Id Item) rand' =
      .ok (.ready none, (⟨[]⟩ : StreamMap Id Item)) := by
  refine ⟨rfl, rfl, ?_, ?_⟩
  · simp [DynamicStreamSet.poll_next, StreamMap.poll_next, Nat.mod_one,
      pollLoop, NamedBoxedStream.poll_next]
  · simp [DynamicStreamSet.poll_next, StreamMap.poll_next, Nat.mod_one,
      pollLoop, NamedBoxedStream.poll_next, swapRemove]

/-- C5 (counterexample to the claim as stated): polling a freshly
constructed, empty DynamicStreamSet does not report Pending — it reports
end-of-sequence (Ready None). -/
theorem empty_poll_not_pending :
    isPendingResult
        (DynamicStreamSet.poll_next .unlocked (DynamicStreamSet.new : StreamMap Nat Char) 0)
      = false ∧
    DynamicStreamSet.poll_next .unlocked (DynamicStreamSet.new : StreamMap Nat Char) 0 =
      .ok (.ready none, DynamicStreamSet.new) :=
  ⟨rfl, rfl⟩

/-- C4: whenever a merge poll reports end-of-input, every entry observed
exhausted during the poll has been removed and the registry is empty, so a
subsequent detach of any id reports absent (None), never the exhausted
entry. -/
theorem exhausted_reaped_detach_absent (m m' : StreamMap Id Item)
    (rand : Nat) (k : Id)
    (h : DynamicStreamSet.poll_next .unlocked m rand = .ok (.ready none, m')) :
    m'.entries = [] ∧
    DynamicStreamSet.detach .unlocked m' k = .ok (none, m') := by
  have hp : StreamMap.poll_next m rand = (.ready none, m') := by
    rcases hq : StreamMap.poll_next m rand with ⟨p, mm⟩
    simp only [DynamicStreamSet.poll_next, hq] at h
    cases p with
    | ready v =>
      simp only [LockResult.ok.injEq, Prod.mk.injEq, SetPoll.ready.injEq] at h
      rw [h.1, h.2]
    | pending => simp at h
  have hentries := StreamMap.poll_next_ready_none_empty m rand m' hp
  refine ⟨hentries, ?_⟩
  obtain ⟨es⟩ := m'
  simp only at hentries
  subst hentries
  rfl

/-- C4 witness: a registry holding one already-exhausted source polls to
end-of-input with the entry reaped, and detaching its id reports absent. -/
theorem exhausted_reaped_detach_absent_witness :
    (⟨[]⟩ : StreamMap Nat Char).entries = [] ∧
    DynamicStreamSet.detach .unlocked (⟨[]⟩ : StreamMap Nat Char) 1 =
      .ok (none, (⟨[]⟩ : StreamMap Nat Char)) :=
  exhausted_reaped_detach_absent (⟨[(1, ⟨1, []⟩)]⟩ : StreamMap Nat Char)
    ⟨[]⟩ 0 1 (by decide)

end EasyClaims

section ListLemmas

theorem swapRemove_cons {α : Type} (a : α) (l : List α) (i : Nat)
    (h : i < l.length) :
    swapRemove (a :: l) (i + 1) = a :: swapRemove l i := by
  by_cases h2 : i + 1 < l.length
  · have hne : l ≠ [] := List.ne_nil_of_length_pos (by omega)
    obtain ⟨b, t, rfl⟩ := List.exists_cons_of_ne_nil hne
    rw [swapRemove, swapRemove, if_pos (by simpa using Nat.succ_lt_succ h2),
      if_pos h2, List.getLast?_cons_cons,
      List.getLast?_eq_getLast (b :: t) (by simp)]
    simp only [List.dropLast_cons₂, List.set_cons_succ]
  · have hne : l ≠ [] := List.ne_nil_of_length_pos (by omega)
    obtain ⟨b, t, rfl⟩ := List.exists_cons_of_ne_nil hne
    rw [swapRemove, swapRemove,
      if_neg (by simp only [List.length_cons] at h2 ⊢; omega), if_neg h2,
      List.dropLast_cons₂]

theorem swapRemove_perm {α : Type} :
    ∀ (l : List α) (i : Nat), i < l.length →
      List.Perm (swapRemove l i) (l.eraseIdx i)
  | [], i, h => absurd h (by simp)
  | a :: l, 0, _ => by
    cases l with
    | nil => exact List.Perm.refl _
    | cons b t =>
      rw [swapRemove, if_pos (by simp),
        List.getLast?_eq_getLast (a :: b :: t) (by simp)]
      simp only [List.dropLast_cons₂, List.set_cons_succ, List.eraseIdx,
        List.set]
      calc List.Perm ((a :: b :: t).getLast (by simp) :: (b :: t).dropLast)
            ((b :: t).dropLast ++ [(a :: b :: t).getLast (by simp)]) :=
            (List.perm_append_singleton _ _).symm
        _ = b :: t := by
            rw [List.getLast_cons (by simp : (b :: t) ≠ [])]
            exact List.dropLast_append_getLast (by simp)
  | a :: l, i + 1, h => by
    have hi : i < l.length := by simpa using Nat.lt_of_succ_lt_succ h
    rw [swapRemove_cons a l i hi]
    exact (swapRemove_perm l i hi).cons a

theorem perm_getElem_cons_eraseIdx {α : Type} (l : List α) (i : Nat)
    (h : i < l.length) :
    List.Perm l (l[i] :: l.eraseIdx i) := by
  conv_lhs => rw [← List.take_append_drop i l, ← List.getElem_cons_drop l i h]
  rw [List.eraseIdx_eq_take_drop_succ]
  exact List.perm_middle

end ListLemmas

section LookupLemmas

variable {Id Item : Type} [DecidableEq Id] [DecidableEq Item]

theorem lookupEntry_none_iff (k : Id)
    (l : List (Id × NamedBoxedStream Id Item)) :
    lookupEntry k l = none ↔ k ∉ keys l := by
  induction l with
  | nil => simp [lookupEntry, keys]
  | cons e rest ih =>
    by_cases he : e.1 = k
    · simp [lookupEntry, he, keys]
    · simp only [lookupEntry, if_neg he, keys, List.map_cons, List.mem_cons,
        ih, keys]
      constructor
      · intro hn hc
        rcases hc with hc | hc
        · exact he hc.symm
        · exact hn hc
      · intro hn
        exact fun hc => hn (Or.inr hc)

theorem lookupEntry_mem {k : Id} {s : NamedBoxedStream Id Item}
    {l : List (Id × NamedBoxedStream Id Item)}
    (h : lookupEntry k l = some s) : (k, s) ∈ l := by
  induction l with
  | nil => simp [lookupEntry] at h
  | cons e rest ih =>
    obtain ⟨e1, e2⟩ := e
    by_cases he : e1 = k
    · subst he
      simp only [lookupEntry, eq_self_iff_true, if_true,
        Option.some.injEq] at h
      rw [← h]
      exact List.mem_cons_self _ _
    · simp only [lookupEntry, if_neg he] at h
      exact List.mem_cons_of_mem _ (ih h)

theorem lookupEntry_perm {l l' : List (Id × NamedBoxedStream Id Item)}
    (h : List.Perm l l') :
    (keys l).Nodup → ∀ k, lookupEntry k l = lookupEntry k l' := by
  induction h with
  | nil => exact fun _ _ => rfl
  | cons x _ ih =>
    intro nd k
    rename_i l₁ l₂ _
    have ndc : (x.1 :: keys l₁).Nodup := nd
    have nd' : (keys l₁).Nodup := (List.nodup_cons.mp ndc).2
    by_cases hx : x.1 = k
    · simp [lookupEntry, hx]
    · simp [lookupEntry, hx, ih nd' k]
  | swap x y l =>
    intro nd k
    have ndc : (y.1 :: x.1 :: keys l).Nodup := nd
    have hxy : y.1 ≠ x.1 := by
      have hm := (List.nodup_cons.mp ndc).1
      simp only [List.mem_cons] at hm
      exact fun hc => hm (Or.inl hc)
    by_cases hy : y.1 = k <;> by_cases hx : x.1 = k
    · exact absurd (hy.trans hx.symm) hxy
    · simp [lookupEntry, hy, hx]
    · simp [lookupEntry, hy, hx]
    · simp [lookupEntry, hy, hx]
  | trans h₁ _ ih₁ ih₂ =>
    intro nd k
    have nd₂ : _ := (show List.Nodup _ from nd).perm (h₁.map Prod.fst)
    rw [ih₁ nd k, ih₂ nd₂ k]

theorem totalItems_perm {l l' : List (Id × NamedBoxedStream Id Item)}
    (h : List.Perm l l') : totalItems l = totalItems l' := by
  unfold totalItems
  exact (h.map fun e => e.2.stream.length).sum_eq

theorem keys_perm {l l' : List (Id × NamedBoxedStream Id Item)}
    (h : List.Perm l l') : List.Perm (keys l) (keys l') :=
  h.map Prod.fst

end LookupLemmas

section MapOps

variable {Id Item : Type} [DecidableEq Id] [DecidableEq Item]

theorem keys_append (l₁ l₂ : List (Id × NamedBoxedStream Id Item)) :
    keys (l₁ ++ l₂) = keys l₁ ++ keys l₂ :=
  List.map_append _ _ _

theorem lookupEntry_append_of_none {j : Id}
    {l₁ : List (Id × NamedBoxedStream Id Item)} (l₂ : List _)
    (h : lookupEntry j l₁ = none) :
    lookupEntry j (l₁ ++ l₂) = lookupEntry j l₂ := by
  induction l₁ with
  | nil => simp
  | cons e rest ih =>
    by_cases he : e.1 = j
    · simp [lookupEntry, he] at h
    · simp only [lookupEntry, if_neg he] at h
      simpa [lookupEntry, he] using ih h

theorem lookupEntry_append_of_some {j : Id} {s : NamedBoxedStream Id Item}
    {l₁ : List (Id × NamedBoxedStream Id Item)} (l₂ : List _)
    (h : lookupEntry j l₁ = some s) :
    lookupEntry j (l₁ ++ l₂) = some s := by
  induction l₁ with
  | nil => simp [lookupEntry] at h
  | cons e rest ih =>
    by_cases he : e.1 = j
    · simp only [lookupEntry, if_pos he] at h
      simpa [lookupEntry, he] using h
    · simp only [lookupEntry, if_neg he] at h
      simpa [lookupEntry, he] using ih h

theorem swapRemove_lookup {l : List (Id × NamedBoxedStream Id Item)}
    {i : Nat} {k : Id} {s : NamedBoxedStream Id Item}
    (nd : (keys l).Nodup) (hget : l[i]? = some (k, s)) :
    lookupEntry k l = some s ∧
    (keys (swapRemove l i)).Nodup ∧
    lookupEntry k (swapRemove l i) = none ∧
    (∀ j, j ≠ k → lookupEntry j (swapRemove l i) = lookupEntry j l) ∧
    totalItems (swapRemove l i) + s.stream.length = totalItems l := by
  obtain ⟨hlt, hval⟩ := List.getElem?_eq_some_iff.mp hget
  have hperm1 : List.Perm l ((k, s) :: l.eraseIdx i) := by
    have hp := perm_getElem_cons_eraseIdx l i hlt
    rwa [hval] at hp
  have hperm2 : List.Perm (swapRemove l i) (l.eraseIdx i) :=
    swapRemove_perm l i hlt
  have hkeys1 : List.Perm (keys l) (k :: keys (l.eraseIdx i)) := by
    simpa [keys] using keys_perm hperm1
  have ndcons : (k :: keys (l.eraseIdx i)).Nodup := nd.perm hkeys1
  have hknotin : k ∉ keys (l.eraseIdx i) := (List.nodup_cons.mp ndcons).1
  have nderase : (keys (l.eraseIdx i)).Nodup := (List.nodup_cons.mp ndcons).2
  have ndswap : (keys (swapRemove l i)).Nodup :=
    nderase.perm (keys_perm hperm2).symm
  have hlook_erase : ∀ j,
      lookupEntry j (swapRemove l i) = lookupEntry j (l.eraseIdx i) :=
    lookupEntry_perm hperm2 ndswap
  have hlook_l : ∀ j,
      lookupEntry j l = lookupEntry j ((k, s) :: l.eraseIdx i) :=
    lookupEntry_perm hperm1 nd
  refine ⟨?_, ndswap, ?_, ?_, ?_⟩
  · rw [hlook_l k]
    simp [lookupEntry]
  · rw [hlook_erase k]
    exact (lookupEntry_none_iff k _).mpr hknotin
  · intro j hj
    rw [hlook_erase j, hlook_l j]
    simp [lookupEntry, Ne.symm hj]
  · rw [totalItems_perm hperm2, totalItems_perm hperm1]
    simp [totalItems]
    omega

theorem set_lookup {l : List (Id × NamedBoxedStream Id Item)}
    {i : Nat} {k : Id} {s : NamedBoxedStream Id Item}
    (nd : (keys l).Nodup) (hget : l[i]? = some (k, s))
    (s' : NamedBoxedStream Id Item) :
    lookupEntry k l = some s ∧
    keys (l.set i (k, s')) = keys l ∧
    lookupEntry k (l.set i (k, s')) = some s' ∧
    (∀ j, j ≠ k → lookupEntry j (l.set i (k, s')) = lookupEntry j l) ∧
    totalItems (l.set i (k, s')) + s.stream.length =
      totalItems l + s'.stream.length := by
  induction l generalizing i with
  | nil => simp at hget
  | cons e rest ih =>
    cases i with
    | zero =>
      simp only [List.getElem?_cons_zero, Option.some.injEq] at hget
      subst hget
      refine ⟨?_, ?_, ?_, ?_, ?_⟩
      · simp [lookupEntry]
      · simp [keys, List.set]
      · simp [lookupEntry, List.set]
      · intro j hj
        simp [lookupEntry, List.set, Ne.symm hj]
      · simp [totalItems, List.set]
        omega
    | succ i =>
      simp only [List.getElem?_cons_succ] at hget
      have ndc : (e.1 :: keys rest).Nodup := nd
      have nd' : (keys rest).Nodup := (List.nodup_cons.mp ndc).2
      have hmem : k ∈ keys rest := by
        obtain ⟨hlt, hval⟩ := List.getElem?_eq_some_iff.mp hget
        have hm : (k, s) ∈ rest := hval ▸ List.getElem_mem hlt
        exact List.mem_map_of_mem Prod.fst hm
      have hek : e.1 ≠ k := fun hc => (List.nodup_cons.mp ndc).1 (hc ▸ hmem)
      obtain ⟨h1, h2, h3, h4, h5⟩ := ih nd' hget
      refine ⟨?_, ?_, ?_, ?_, ?_⟩
      · simp [lookupEntry, hek, h1]
      · simp only [List.set_cons_succ, keys, List.map_cons]
        simpa [keys] using h2
      · simp [lookupEntry, List.set_cons_succ, hek, h3]
      · intro j hj
        by_cases hej : e.1 = j
        · simp [lookupEntry, List.set_cons_succ, hej]
        · simp [lookupEntry, List.set_cons_succ, hej, h4 j hj]
      · simp only [List.set_cons_succ, totalItems, List.map_cons,
          List.sum_cons] at h5 ⊢
        omega

theorem findKeyIdx_none_iff (k : Id)
    (l : List (Id × NamedBoxedStream Id Item)) :
    findKeyIdx k l = none ↔ lookupEntry k l = none := by
  induction l with
  | nil => simp [findKeyIdx, lookupEntry]
  | cons e rest ih =>
    by_cases he : e.1 = k
    · simp [findKeyIdx, lookupEntry, he]
    · simp [findKeyIdx, lookupEntry, he, ih]

theorem findKeyIdx_some_spec {k : Id}
    {l : List (Id × NamedBoxedStream Id Item)} {i : Nat}
    (h : findKeyIdx k l = some i) :
    ∃ s, l[i]? = some (k, s) ∧ lookupEntry k l = some s := by
  induction l generalizing i with
  | nil => simp [findKeyIdx] at h
  | cons e rest ih =>
    by_cases he : e.1 = k
    · rw [findKeyIdx, if_pos he] at h
      have hi : i = 0 := (Option.some.inj h).symm
      subst hi
      obtain ⟨e1, e2⟩ := e
      simp only at he
      subst he
      exact ⟨e2, by simp, by simp [lookupEntry]⟩
    · rw [findKeyIdx, if_neg he] at h
      obtain ⟨j, hj, hi⟩ := Option.map_eq_some'.mp h
      subst hi
      obtain ⟨s, hs1, hs2⟩ := ih hj
      exact ⟨s, by simpa using hs1, by simp [lookupEntry, he, hs2]⟩

theorem StreamMap.remove_none {m : StreamMap Id Item} {k : Id}
    (h : lookupEntry k m.entries = none) :
    m.remove k = (none, m) := by
  rw [StreamMap.remove, (findKeyIdx_none_iff k m.entries).mpr h]

theorem StreamMap.remove_some {m : StreamMap Id Item} {k : Id}
    {s : NamedBoxedStream Id Item}
    (nd : (keys m.entries).Nodup) (h : lookupEntry k m.entries = some s) :
    ∃ m', m.remove k = (some s, m') ∧
      (keys m'.entries).Nodup ∧
      lookupEntry k m'.entries = none ∧
      (∀ j, j ≠ k → lookupEntry j m'.entries = lookupEntry j m.entries) := by
  rcases hf : findKeyIdx k m.entries with _ | i
  · rw [(findKeyIdx_none_iff k m.entries).mp hf] at h
    exact absurd h (by simp)
  · obtain ⟨s₀, hg, hl⟩ := findKeyIdx_some_spec hf
    have hs : s₀ = s := by
      rw [hl] at h
      exact Option.some.inj h
    subst hs
    obtain ⟨_, ndsw, hnone, hother, _⟩ := swapRemove_lookup nd hg
    refine ⟨⟨swapRemove m.entries i⟩, ?_, ndsw, hnone, hother⟩
    simp [StreamMap.remove, hf, hg]

theorem StreamMap.insert_spec (m : StreamMap Id Item) (k : Id)
    (v : NamedBoxedStream Id Item) (nd : (keys m.entries).Nodup) :
    ∃ m', m.insert k v = (lookupEntry k m.entries, m') ∧
      (keys m'.entries).Nodup ∧
      lookupEntry k m'.entries = some v ∧
      (∀ j, j ≠ k → lookupEntry j m'.entries = lookupEntry j m.entries) := by
  rcases hl : lookupEntry k m.entries with _ | s
  · have hr := StreamMap.remove_none (m := m) (k := k) hl
    have hknotin : k ∉ keys m.entries := (lookupEntry_none_iff k _).mp hl
    refine ⟨⟨m.entries ++ [(k, v)]⟩, ?_, ?_, ?_, ?_⟩
    · simp [StreamMap.insert, hr]
    · rw [keys_append]
      refine nd.append (by simp [keys]) ?_
      intro a ha hb
      simp only [keys, List.map_cons, List.map_nil, List.mem_singleton] at hb
      exact hknotin (hb ▸ ha)
    · rw [lookupEntry_append_of_none _ hl]
      simp [lookupEntry]
    · intro j hj
      rcases hjl : lookupEntry j m.entries with _ | t
      · rw [lookupEntry_append_of_none _ hjl]
        simp [lookupEntry, Ne.symm hj]
      · rw [lookupEntry_append_of_some _ hjl]
  · obtain ⟨m₂, hrem, nd₂, hnone₂, hoth₂⟩ := StreamMap.remove_some nd hl
    have hknotin : k ∉ keys m₂.entries := (lookupEntry_none_iff k _).mp hnone₂
    refine ⟨⟨m₂.entries ++ [(k, v)]⟩, ?_, ?_, ?_, ?_⟩
    · simp [StreamMap.insert, hrem]
    · rw [keys_append]
      refine nd₂.append (by simp [keys]) ?_
      intro a ha hb
      simp only [keys, List.map_cons, List.map_nil, List.mem_singleton] at hb
      exact hknotin (hb ▸ ha)
    · rw [lookupEntry_append_of_none _ hnone₂]
      simp [lookupEntry]
    · intro j hj
      rcases hjl : lookupEntry j m₂.entries with _ | t
      · rw [lookupEntry_append_of_none _ hjl, ← hoth₂ j hj, hjl]
        simp [lookupEntry, Ne.symm hj]
      · rw [lookupEntry_append_of_some _ hjl, ← hoth₂ j hj, hjl]

end MapOps

section AttachDetachClaims

variable {Id Item : Type} [DecidableEq Id] [DecidableEq Item]

/-- C2: attach inserts under the carried id.  On a fresh id it returns
None; on a colliding id it returns the previously stored Identified Lazy
Sequence intact — the very stored value, still carrying its original id
(equal to the key), and draining to its own items in its own order.  In
both cases the new entry is stored under the id. -/
theorem attach_replace_identity (m : StreamMap Id Item)
    (s old : NamedBoxedStream Id Item) (hwf : WF m) :
    (lookupEntry s.id m.entries = none →
      ∃ m', DynamicStreamSet.attach .unlocked m s = .ok (none, m') ∧
        lookupEntry s.id m'.entries = some s) ∧
    (lookupEntry s.id m.entries = some old →
      ∃ m', DynamicStreamSet.attach .unlocked m s = .ok (some old, m') ∧
        old.id = s.id ∧ old.drain = old.stream ∧
        lookupEntry s.id m'.entries = some s) := by
  obtain ⟨nd, align⟩ := hwf
  obtain ⟨m', hins, _, hlook', _⟩ := StreamMap.insert_spec m s.id s nd
  constructor
  · intro hl
    refine ⟨m', ?_, hlook'⟩
    simp only [DynamicStreamSet.attach]
    rw [hins, hl]
  · intro hl
    have hmem := lookupEntry_mem hl
    have halign : old.id = s.id := align _ hmem
    refine ⟨m', ?_, halign, NamedBoxedStream.drain_eq old, hlook'⟩
    simp only [DynamicStreamSet.attach]
    rw [hins, hl]

/-- C2 witness: the spec scenario — attach (2 -> ['b']), then attach
(2 -> ['c']): the displaced entry is exactly (2 -> ['b']). -/
theorem attach_replace_identity_witness :
    WF (⟨[(2, ⟨2, ['b']⟩)]⟩ : StreamMap Nat Char) ∧
    ((lookupEntry (2 : Nat)
        (⟨[(2, ⟨2, ['b']⟩)]⟩ : StreamMap Nat Char).entries = none →
      ∃ m', DynamicStreamSet.attach .unlocked
          (⟨[(2, ⟨2, ['b']⟩)]⟩ : StreamMap Nat Char) ⟨2, ['c']⟩ =
            .ok (none, m') ∧
        lookupEntry 2 m'.entries = some ⟨2, ['c']⟩) ∧
    (lookupEntry (2 : Nat)
        (⟨[(2, ⟨2, ['b']⟩)]⟩ : StreamMap Nat Char).entries =
          some ⟨2, ['b']⟩ →
      ∃ m', DynamicStreamSet.attach .unlocked
          (⟨[(2, ⟨2, ['b']⟩)]⟩ : StreamMap Nat Char) ⟨2, ['c']⟩ =
            .ok (some ⟨2, ['b']⟩, m') ∧
        (⟨2, ['b']⟩ : NamedBoxedStream Nat Char).id = 2 ∧
        (⟨2, ['b']⟩ : NamedBoxedStream Nat Char).drain = ['b'] ∧
        lookupEntry 2 m'.entries = some ⟨2, ['c']⟩)) :=
  ⟨by decide,
    attach_replace_identity (⟨[(2, ⟨2, ['b']⟩)]⟩ : StreamMap Nat Char)
      ⟨2, ['c']⟩ ⟨2, ['b']⟩ (by decide)⟩

/-- C7: detach removes and returns the entry stored under the id when
present, returns None when absent (whether never attached or already
reaped), and on an uncontended, unpoisoned registry always completes with
an ordinary result — never a panic or an error. -/
theorem detach_semantics (m : StreamMap Id Item) (k : Id)
    (old : NamedBoxedStream Id Item) (hwf : WF m) :
    (lookupEntry k m.entries = none →
      DynamicStreamSet.detach .unlocked m k = .ok (none, m)) ∧
    (lookupEntry k m.entries = some old →
      ∃ m', DynamicStreamSet.detach .unlocked m k = .ok (some old, m') ∧
        lookupEntry k m'.entries = none) ∧
    (∃ r, DynamicStreamSet.detach .unlocked m k = .ok r) := by
  obtain ⟨nd, _⟩ := hwf
  refine ⟨?_, ?_, ⟨m.remove k, rfl⟩⟩
  · intro hl
    simp only [DynamicStreamSet.detach]
    rw [StreamMap.remove_none hl]
  · intro hl
    obtain ⟨m', hrem, _, hnone, _⟩ := StreamMap.remove_some nd hl
    exact ⟨m', by simp only [DynamicStreamSet.detach]; rw [hrem], hnone⟩

/-- C7 witness: detaching id 1 from a registry holding (1 -> ['a'])
returns that entry; detaching from the emptied registry returns None. -/
theorem detach_semantics_witness :
    WF (⟨[(1, ⟨1, ['a']⟩)]⟩ : StreamMap Nat Char) ∧
    ((lookupEntry (1 : Nat)
        (⟨[(1, ⟨1, ['a']⟩)]⟩ : StreamMap Nat Char).entries = none →
      DynamicStreamSet.detach .unlocked
          (⟨[(1, ⟨1, ['a']⟩)]⟩ : StreamMap Nat Char) 1 =
        .ok (none, ⟨[(1, ⟨1, ['a']⟩)]⟩)) ∧
    (lookupEntry (1 : Nat)
        (⟨[(1, ⟨1, ['a']⟩)]⟩ : StreamMap Nat Char).entries =
          some ⟨1, ['a']⟩ →
      ∃ m', DynamicStreamSet.detach .unlocked
          (⟨[(1, ⟨1, ['a']⟩)]⟩ : StreamMap Nat Char) 1 =
            .ok (some ⟨1, ['a']⟩, m') ∧
        lookupEntry 1 m'.entries = none) ∧
    (∃ r, DynamicStreamSet.detach .unlocked
        (⟨[(1, ⟨1, ['a']⟩)]⟩ : StreamMap Nat Char) 1 = .ok r)) :=
  ⟨by decide,
    detach_semantics (⟨[(1, ⟨1, ['a']⟩)]⟩ : StreamMap Nat Char) 1
      ⟨1, ['a']⟩ (by decide)⟩

/-- C10: attach and detach are frame-local to their id — attach leaves
every other id's entry unchanged, detach leaves every other id's entry
unchanged, and detach of an absent id leaves the whole registry (entry
vector included) unchanged. -/
theorem attach_detach_frame (m : StreamMap Id Item)
    (s : NamedBoxedStream Id Item) (k j : Id) (hwf : WF m) :
    (j ≠ s.id →
      ∃ o m', DynamicStreamSet.attach .unlocked m s = .ok (o, m') ∧
        lookupEntry j m'.entries = lookupEntry j m.entries) ∧
    (j ≠ k →
      ∃ o m', DynamicStreamSet.detach .unlocked m k = .ok (o, m') ∧
        lookupEntry j m'.entries = lookupEntry j m.entries) ∧
    (lookupEntry k m.entries = none →
      DynamicStreamSet.detach .unlocked m k = .ok (none, m)) := by
  obtain ⟨nd, _⟩ := hwf
  refine ⟨?_, ?_, ?_⟩
  · intro hj
    obtain ⟨m', hins, _, _, hoth⟩ := StreamMap.insert_spec m s.id s nd
    exact ⟨_, m',
      by simp only [DynamicStreamSet.attach]; rw [hins], hoth j hj⟩
  · intro hj
    rcases hl : lookupEntry k m.entries with _ | t
    · exact ⟨none, m,
        by simp only [DynamicStreamSet.detach]; rw [StreamMap.remove_none hl],
        rfl⟩
    · obtain ⟨m', hrem, _, _, hoth⟩ := StreamMap.remove_some nd hl
      exact ⟨some t, m',
        by simp only [DynamicStreamSet.detach]; rw [hrem], hoth j hj⟩
  · intro hl
    simp only [DynamicStreamSet.detach]
    rw [StreamMap.remove_none hl]

/-- C10 witness: on the registry (1 -> ['a']), attaching (2 -> ['b']) and
detaching 2 leave id 1's entry unchanged; detaching the absent id 2 leaves
the registry unchanged. -/
theorem attach_detach_frame_witness :
    WF (⟨[(1, ⟨1, ['a']⟩)]⟩ : StreamMap Nat Char) ∧
    (((1 : Nat) ≠ (⟨2, ['b']⟩ : NamedBoxedStream Nat Char).id →
      ∃ o m', DynamicStreamSet.attach .unlocked
          (⟨[(1, ⟨1, ['a']⟩)]⟩ : StreamMap Nat Char) ⟨2, ['b']⟩ =
            .ok (o, m') ∧
        lookupEntry 1 m'.entries =
          lookupEntry 1 (⟨[(1, ⟨1, ['a']⟩)]⟩ : StreamMap Nat Char).entries) ∧
    ((1 : Nat) ≠ 2 →
      ∃ o m', DynamicStreamSet.detach .unlocked
          (⟨[(1, ⟨1, ['a']⟩)]⟩ : StreamMap Nat Char) 2 = .ok (o, m') ∧
        lookupEntry 1 m'.entries =
          lookupEntry 1 (⟨[(1, ⟨1, ['a']⟩)]⟩ : StreamMap Nat Char).entries) ∧
    (lookupEntry (2 : Nat)
        (⟨[(1, ⟨1, ['a']⟩)]⟩ : StreamMap Nat Char).entries = none →
      DynamicStreamSet.detach .unlocked
          (⟨[(1, ⟨1, ['a']⟩)]⟩ : StreamMap Nat Char) 2 =
        .ok (none, ⟨[(1, ⟨1, ['a']⟩)]⟩))) :=
  ⟨by decide,
    attach_detach_frame (⟨[(1, ⟨1, ['a']⟩)]⟩ : StreamMap Nat Char)
      ⟨2, ['b']⟩ 2 1 (by decide)⟩

end AttachDetachClaims

section MergeSpec

variable {Id Item : Type} [DecidableEq Id] [DecidableEq Item]

theorem itemsOf_length_le (l : List (Id × NamedBoxedStream Id Item))
    (k : Id) : (itemsOf l k).length ≤ totalItems l := by
  rcases h : lookupEntry k l with _ | s
  · simp [itemsOf, h]
  · have hm := lookupEntry_mem h
    have hmem : s.stream.length ∈ l.map (fun e => e.2.stream.length) :=
      List.mem_map_of_mem _ hm
    simpa [itemsOf, h, totalItems] using
      List.single_le_sum (fun x _ => Nat.zero_le x) _ hmem

theorem mem_ofId {p : Id × Item} {l : List (Id × Item)} (h : p ∈ l) :
    p.2 ∈ ofId p.1 l := by
  induction l with
  | nil => simp at h
  | cons q rest ih =>
    rcases List.mem_cons.mp h with heq | hmem
    · subst heq
      simp [ofId]
    · by_cases hq : q.1 = p.1
      · simp only [ofId, List.filterMap_cons, if_pos hq]
        exact List.mem_cons_of_mem _ (ih hmem)
      · simp only [ofId, List.filterMap_cons, if_neg hq]
        exact ih hmem

/-- Characterization of the poll_next_entry loop on a registry with unique
keys: either some entry yields its next item — with that id's remaining
items advanced by exactly that item, every other id untouched, and one
fewer item in total — or every entry was exhausted and the loop removed
them all. -/
theorem pollLoop_spec (r : Nat) :
    ∀ (l : List (Id × NamedBoxedStream Id Item)) (start idx : Nat),
      l.length = r → (idx < r ∨ r = 0) → (keys l).Nodup →
      (∃ k x l', pollLoop l start idx r = (some (k, x), l') ∧
         (keys l').Nodup ∧
         itemsOf l k = x :: itemsOf l' k ∧
         (∀ j, j ≠ k → itemsOf l' j = itemsOf l j) ∧
         totalItems l' + 1 = totalItems l) ∨
      (pollLoop l start idx r = (none, ([] : List _)) ∧
        ∀ j, itemsOf l j = []) := by
  induction r with
  | zero =>
    intro l start idx hlen _ _
    right
    have hl : l = [] := List.length_eq_zero.mp hlen
    subst hl
    exact ⟨rfl, fun j => by simp [itemsOf, lookupEntry]⟩
  | succ r ih =>
    intro l start idx hlen hidx nd
    have hlt : idx < l.length := by omega
    rcases hval : l[idx]? with _ | e
    · rw [List.getElem?_eq_getElem hlt] at hval
      exact absurd hval (by simp)
    obtain ⟨k, s⟩ := e
    rcases hs : s.stream with _ | ⟨x, rest⟩
    · -- this entry is exhausted: it is swap_removed and the loop continues
      obtain ⟨hlk, ndes, hnone, hoth, htot⟩ := swapRemove_lookup nd hval
      have hlen_es : (swapRemove l idx).length = r := by
        have h1 := (swapRemove_perm l idx hlt).length_eq
        have h2 := List.length_eraseIdx_add_one hlt
        omega
      have hitems_l_k : itemsOf l k = [] := by simp [itemsOf, hlk, hs]
      have hitems_es_k : itemsOf (swapRemove l idx) k = [] := by
        simp [itemsOf, hnone]
      have htot_es : totalItems (swapRemove l idx) = totalItems l := by
        rw [hs] at htot
        simpa using htot
      have hb : (if idx = (swapRemove l idx).length then 0
          else if idx < start ∧ start ≤ (swapRemove l idx).length then
            (idx + 1) % (swapRemove l idx).length
          else idx) < r ∨ r = 0 := by
        by_cases h1 : idx = (swapRemove l idx).length
        · rw [if_pos h1]
          omega
        · rw [if_neg h1]
          rw [hlen_es] at h1
          have hr : 0 < r := by omega
          by_cases h2 : idx < start ∧ start ≤ (swapRemove l idx).length
          · rw [if_pos h2, hlen_es]
            exact Or.inl (Nat.mod_lt _ hr)
          · rw [if_neg h2]
            omega
      have hstep : pollLoop l start idx (r + 1) =
          pollLoop (swapRemove l idx) start
            (if idx = (swapRemove l idx).length then 0
             else if idx < start ∧ start ≤ (swapRemove l idx).length then
               (idx + 1) % (swapRemove l idx).length
             else idx) r := by
        simp only [pollLoop, hval, NamedBoxedStream.poll_next, hs]
      rcases ih (swapRemove l idx) start _ hlen_es hb ndes with
        ⟨k', x, l', heq, nd', hi, ho, ht⟩ | ⟨heq, hall⟩
      · left
        have hkk' : k' ≠ k := by
          intro hc
          rw [hc, hitems_es_k] at hi
          exact absurd hi (by simp)
        refine ⟨k', x, l', by rw [hstep, heq], nd', ?_, ?_, ?_⟩
        · have h1 : itemsOf l k' = itemsOf (swapRemove l idx) k' := by
            simp [itemsOf, hoth k' hkk']
          rw [h1, hi]
        · intro j hj
          by_cases hjk : j = k
          · subst hjk
            rw [ho j hj, hitems_es_k, hitems_l_k]
          · rw [ho j hj]
            simp [itemsOf, hoth j hjk]
        · omega
      · right
        refine ⟨by rw [hstep, heq], ?_⟩
        intro j
        by_cases hjk : j = k
        · subst hjk
          exact hitems_l_k
        · have h1 : itemsOf l j = itemsOf (swapRemove l idx) j := by
            simp [itemsOf, hoth j hjk]
          rw [h1]
          exact hall j
    · -- this entry yields its head item
      obtain ⟨hlk, hkeys_eq, hlook', hoth, htot⟩ :=
        set_lookup nd hval { s with stream := rest }
      left
      refine ⟨k, x, l.set idx (k, { s with stream := rest }), ?_, ?_, ?_, ?_, ?_⟩
      · simp only [pollLoop, hval, NamedBoxedStream.poll_next, hs]
      · rw [hkeys_eq]
        exact nd
      · simp [itemsOf, hlk, hlook', hs]
      · intro j hj
        simp [itemsOf, hoth j hj]
      · rw [hs] at htot
        simp only [List.length_cons] at htot
        omega

/-- Characterization of one merge poll of the StreamMap (a successful lock
acquisition): either Ready(Some) with one id advanced by one item, or
Ready(None) with the registry emptied because every stream was exhausted. -/
theorem StreamMap.poll_next_spec (m : StreamMap Id Item) (rand : Nat)
    (nd : (keys m.entries).Nodup) :
    (∃ k x m', m.poll_next rand = (.ready (some (k, x)), m') ∧
       (keys m'.entries).Nodup ∧
       itemsOf m.entries k = x :: itemsOf m'.entries k ∧
       (∀ j, j ≠ k → itemsOf m'.entries j = itemsOf m.entries j) ∧
       totalItems m'.entries + 1 = totalItems m.entries) ∨
    (m.poll_next rand = (.ready none, ⟨[]⟩) ∧
      ∀ j, itemsOf m.entries j = []) := by
  have hstart : (if m.entries.length = 0 then 0
      else rand % m.entries.length) < m.entries.length ∨
      m.entries.length = 0 := by
    by_cases h : m.entries.length = 0
    · exact Or.inr h
    · rw [if_neg h]
      exact Or.inl (Nat.mod_lt _ (Nat.pos_of_ne_zero h))
  rcases pollLoop_spec m.entries.length m.entries
      (if m.entries.length = 0 then 0 else rand % m.entries.length)
      (if m.entries.length = 0 then 0 else rand % m.entries.length)
      rfl hstart nd with ⟨k, x, l', heq, nd', hi, ho, ht⟩ | ⟨heq, hall⟩
  · left
    exact ⟨k, x, ⟨l'⟩, by simp only [StreamMap.poll_next, heq], nd', hi, ho, ht⟩
  · right
    exact ⟨by simp only [StreamMap.poll_next, heq, List.isEmpty_nil, if_true],
      hall⟩

end MergeSpec

section DrainSpec

variable {Id Item : Type} [DecidableEq Id] [DecidableEq Item]

theorem ofId_cons_same (k : Id) (x : Item) (l : List (Id × Item)) :
    ofId k ((k, x) :: l) = x :: ofId k l := by
  simp [ofId]

theorem ofId_cons_ne {k j : Id} (h : j ≠ k) (x : Item)
    (l : List (Id × Item)) : ofId j ((k, x) :: l) = ofId j l := by
  simp [ofId, Ne.symm h]

/-- Draining the merged stream with fuel beyond the total number of
remaining items completes, and the items the drain attributes to each id
are exactly that id's remaining items, in that id's own order. -/
theorem drainSet_spec (n : Nat) :
    ∀ (m : StreamMap Id Item) (rands : Nat → Nat),
      totalItems m.entries ≤ n → (keys m.entries).Nodup →
      ∃ l, drainSet m rands (n + 1) = some l ∧
        ∀ k, ofId k l = itemsOf m.entries k := by
  induction n with
  | zero =>
    intro m rands htot nd
    rcases StreamMap.poll_next_spec m (rands 0) nd with
      ⟨k, x, m', _, _, hi, _, _⟩ | ⟨heq, hall⟩
    · exfalso
      have h1 := itemsOf_length_le m.entries k
      rw [hi] at h1
      simp only [List.length_cons] at h1
      omega
    · exact ⟨[], by simp [drainSet, DynamicStreamSet.poll_next, heq],
        fun k => by simp [ofId, hall k]⟩
  | succ n ihn =>
    intro m rands htot nd
    rcases StreamMap.poll_next_spec m (rands 0) nd with
      ⟨k, x, m', heq, nd', hi, ho, ht⟩ | ⟨heq, hall⟩
    · have htot' : totalItems m'.entries ≤ n := by omega
      obtain ⟨l', hdrain, hofid⟩ := ihn m' (fun i => rands (i + 1)) htot' nd'
      refine ⟨(k, x) :: l', ?_, ?_⟩
      · rw [drainSet]
        simp only [DynamicStreamSet.poll_next, heq]
        rw [hdrain]
        rfl
      · intro j
        by_cases hj : j = k
        · subst hj
          rw [ofId_cons_same, hofid j]
          exact hi.symm
        · rw [ofId_cons_ne hj, hofid j, ho j hj]
    · exact ⟨[], by simp [drainSet, DynamicStreamSet.poll_next, heq],
        fun k => by simp [ofId, hall k]⟩

end DrainSpec

section MergeClaim

variable {Id Item : Type} [DecidableEq Id] [DecidableEq Item]

/-- C1: attaching two sources with distinct ids to a fresh
DynamicStreamSet and draining the merged sequence to completion yields
exactly each source's items under its own id, in that source's own order —
no item lost, none duplicated, none attributed to a wrong id — for every
sequence of random start indices (cross-id order unconstrained). -/
theorem merge_drain_exact (s₁ s₂ : NamedBoxedStream Id Item)
    (hne : s₁.id ≠ s₂.id) (rands : Nat → Nat) :
    ∃ (m₁ m₂ : StreamMap Id Item) (l : List (Id × Item)),
      DynamicStreamSet.attach .unlocked DynamicStreamSet.new s₁ =
        .ok (none, m₁) ∧
      DynamicStreamSet.attach .unlocked m₁ s₂ = .ok (none, m₂) ∧
      drainSet m₂ rands (s₁.stream.length + s₂.stream.length + 1) = some l ∧
      ofId s₁.id l = s₁.stream ∧
      ofId s₂.id l = s₂.stream ∧
      ∀ p ∈ l, p.1 = s₁.id ∨ p.1 = s₂.id := by
  have h1 : DynamicStreamSet.attach .unlocked
      (DynamicStreamSet.new : StreamMap Id Item) s₁ =
      .ok (none, ⟨[(s₁.id, s₁)]⟩) := rfl
  have h2 : DynamicStreamSet.attach .unlocked
      (⟨[(s₁.id, s₁)]⟩ : StreamMap Id Item) s₂ =
      .ok (none, ⟨[(s₁.id, s₁), (s₂.id, s₂)]⟩) := by
    simp only [DynamicStreamSet.attach, StreamMap.insert, StreamMap.remove,
      findKeyIdx, if_neg hne, Option.map_none', lookupEntry]
    rfl
  have nd : (keys ([(s₁.id, s₁), (s₂.id, s₂)] :
      List (Id × NamedBoxedStream Id Item))).Nodup := by
    simp [keys, hne]
  have htot : totalItems ([(s₁.id, s₁), (s₂.id, s₂)] :
      List (Id × NamedBoxedStream Id Item)) =
      s₁.stream.length + s₂.stream.length := by
    simp [totalItems]
  obtain ⟨l, hdrain, hofid⟩ :=
    drainSet_spec (s₁.stream.length + s₂.stream.length)
      (⟨[(s₁.id, s₁), (s₂.id, s₂)]⟩ : StreamMap Id Item) rands
      (le_of_eq htot) nd
  have hit1 : itemsOf ([(s₁.id, s₁), (s₂.id, s₂)] :
      List (Id × NamedBoxedStream Id Item)) s₁.id = s₁.stream := by
    simp [itemsOf, lookupEntry]
  have hit2 : itemsOf ([(s₁.id, s₁), (s₂.id, s₂)] :
      List (Id × NamedBoxedStream Id Item)) s₂.id = s₂.stream := by
    simp [itemsOf, lookupEntry, hne]
  refine ⟨⟨[(s₁.id, s₁)]⟩, ⟨[(s₁.id, s₁), (s₂.id, s₂)]⟩, l, h1, h2, hdrain,
    ?_, ?_, ?_⟩
  · rw [hofid s₁.id, hit1]
  · rw [hofid s₂.id, hit2]
  · intro p hp
    by_contra hc
    push_neg at hc
    have hempty : itemsOf ([(s₁.id, s₁), (s₂.id, s₂)] :
        List (Id × NamedBoxedStream Id Item)) p.1 = [] := by
      simp [itemsOf, lookupEntry, Ne.symm hc.1, Ne.symm hc.2]
    have hmem := mem_ofId hp
    rw [hofid p.1, hempty] at hmem
    simp at hmem

/-- C1 witness: the spec scenario — sources 1 -> ['a'] and 2 -> ['b','c'];
the drained merge yields ['a'] under id 1 and ['b','c'] under id 2 and
nothing else. -/
theorem merge_drain_exact_witness :
    (⟨1, ['a']⟩ : NamedBoxedStream Nat Char).id ≠
      (⟨2, ['b', 'c']⟩ : NamedBoxedStream Nat Char).id ∧
    ∃ (m₁ m₂ : StreamMap Nat Char) (l : List (Nat × Char)),
      DynamicStreamSet.attach .unlocked DynamicStreamSet.new ⟨1, ['a']⟩ =
        .ok (none, m₁) ∧
      DynamicStreamSet.attach .unlocked m₁ ⟨2, ['b', 'c']⟩ =
        .ok (none, m₂) ∧
      drainSet m₂ (fun _ => 0)
        ((⟨1, ['a']⟩ : NamedBoxedStream Nat Char).stream.length +
          (⟨2, ['b', 'c']⟩ : NamedBoxedStream Nat Char).stream.length + 1) =
        some l ∧
      ofId 1 l = ['a'] ∧
      ofId 2 l = ['b', 'c'] ∧
      ∀ p ∈ l, p.1 = 1 ∨ p.1 = 2 :=
  ⟨by decide,
    merge_drain_exact (⟨1, ['a']⟩ : NamedBoxedStream Nat Char)
      ⟨2, ['b', 'c']⟩ (by decide) (fun _ => 0)⟩

end MergeClaim
